import Mathlib

/-!
Verification of the differential-comparison driver
`tools/verify_swash_reference.py`.

The development shallowly embeds the Python code:

* Parsed JSON documents (Python values produced by `json.loads`) become the
  inductive type `Swash.JVal`.  Python `int`/`float`/`bool` leaves all carry
  exact rationals through `Swash.pyFloat`; IEEE-754 rounding, `NaN` and
  infinities are outside the model, which is the standard exact-number
  document model for JSON interchange data.
* The comparator `_cmp` (source lines 153-180) becomes `Swash._cmp`, with the
  two inline loops (over sorted keys, and over `enumerate(zip(a, b))`)
  expressed as the mutually recursive helpers `Swash.cmpKeys` and
  `Swash.cmpElems`.
* The driver loop of `main` (source lines 214-226) and the prerequisite gate
  `_require_ok` become `Swash.runCase`, `Swash.runSuite` and
  `Swash.mainModel`, with subprocess results abstracted as `Swash.Proc`
  values and observable actions recorded as `Swash.Ev` events.
-/

namespace Swash

/-- A parsed JSON document as Python's `json.loads` produces it: `None`,
`bool`, `int`, `float`, `str`, `list`, `dict`.  Mappings are kept as
association lists in insertion order; Python dictionaries guarantee unique
keys, which the comparison functions do not rely on (they go through
`set(...)`/first-match lookup exactly as the Python code does). -/
inductive JVal where
  | null : JVal
  | bool (b : Bool) : JVal
  | int (n : Int) : JVal
  | float (q : ℚ) : JVal
  | str (s : String) : JVal
  | list (xs : List JVal) : JVal
  | dict (kvs : List (String × JVal)) : JVal

mutual

/-- Size measure used for the termination of the comparator: scalars weigh
nothing, each container level and each container element weighs one. -/
def size : JVal → Nat
  | .null => 0
  | .bool _ => 0
  | .int _ => 0
  | .float _ => 0
  | .str _ => 0
  | .list xs => 1 + sizeL xs
  | .dict kvs => 1 + sizeD kvs

/-- Total size of the elements of a list, counting one per element. -/
def sizeL : List JVal → Nat
  | [] => 0
  | x :: xs => 1 + size x + sizeL xs

/-- Total size of the values of an association list, counting one per entry. -/
def sizeD : List (String × JVal) → Nat
  | [] => 0
  | kv :: kvs => 1 + size kv.2 + sizeD kvs

end

/-- Total size of a list of pairs of values (the `zip` the sequence branch of
`_cmp` walks), counting one per pair. -/
def sizeP : List (JVal × JVal) → Nat
  | [] => 0
  | p :: ps => 1 + size p.1 + size p.2 + sizeP ps

/-- Python `isinstance(x, (int, float))`: true for `int` and `float` leaves
and, because Python's `bool` is a subclass of `int`, also for booleans. -/
def isNum : JVal → Bool
  | .bool _ => true
  | .int _ => true
  | .float _ => true
  | _ => false

/-- Python `float(x)` on the values accepted by `isNum`: `True ↦ 1.0`,
`False ↦ 0.0`, integers and floats to their numeric value (`0` elsewhere;
the comparator only applies it under an `isNum` guard). -/
def pyFloat : JVal → ℚ
  | .bool b => if b then 1 else 0
  | .int n => (n : ℚ)
  | .float q => q
  | _ => 0

/-- First-match association-list lookup: Python `d[k]` on a dict built from
the entries in order (unique keys make first-match exact). -/
def lookup : List (String × JVal) → String → Option JVal
  | [], _ => none
  | kv :: kvs, k => if kv.1 = k then some kv.2 else lookup kvs k

/-- `lookup` with the (unreachable when the key is present) default `null`;
the comparator only looks up keys both dicts are known to contain. -/
def lookupD (kvs : List (String × JVal)) (k : String) : JVal :=
  (lookup kvs k).getD .null

/-- The keys of an association list in insertion order (`a.keys()`). -/
def keyList (kvs : List (String × JVal)) : List String :=
  kvs.map Prod.fst

/-- Python `set(a.keys())`, modelled as a `Finset`. -/
def keySet (kvs : List (String × JVal)) : Finset String :=
  (keyList kvs).toFinset

/-- Lexicographic comparison of character lists by code point: exactly the
order Python uses to sort strings. -/
def charListLe : List Char → List Char → Bool
  | [], _ => true
  | _ :: _, [] => false
  | a :: as, b :: bs => if a < b then true else if b < a then false else charListLe as bs

/-- Python string `<=`: code-point-lexicographic on the character sequences. -/
def pyStrLe (a b : String) : Bool := charListLe a.data b.data

/-- Python `sorted(set(a.keys()))`: the distinct keys in increasing string
order. -/
def sortedKeys (kvs : List (String × JVal)) : List String :=
  List.insertionSort (fun a b => pyStrLe a b = true) (keyList kvs).dedup

/-- A single-quote character, used by Python `repr` of strings. -/
def sq : String := String.mk [Char.ofNat 39]

/-- Python `str(...)` of a sorted key list, as interpolated by the f-string
of the key-mismatch message: `['a', 'b']`. -/
def renderKeys (ks : List String) : String :=
  "[" ++ String.intercalate ", " (ks.map (fun k => sq ++ k ++ sq)) ++ "]"

mutual

/-- Python `repr` of a document value (the `!r` interpolations of the
value-mismatch message).  String escaping is abstracted to plain quoting, and
float rendering to the rational's string form. -/
def pyRepr : JVal → String
  | .null => "None"
  | .bool b => if b then "True" else "False"
  | .int n => toString n
  | .float q => toString q
  | .str s => sq ++ s ++ sq
  | .list xs => "[" ++ pyReprL xs ++ "]"
  | .dict kvs => "\x7b" ++ pyReprD kvs ++ "\x7d"

/-- `repr` of the comma-separated element list of a Python list. -/
def pyReprL : List JVal → String
  | [] => ""
  | [x] => pyRepr x
  | x :: xs => pyRepr x ++ ", " ++ pyReprL xs

/-- `repr` of the comma-separated entry list of a Python dict. -/
def pyReprD : List (String × JVal) → String
  | [] => ""
  | [kv] => sq ++ kv.1 ++ sq ++ ": " ++ pyRepr kv.2
  | kv :: kvs => sq ++ kv.1 ++ sq ++ ": " ++ pyRepr kv.2 ++ ", " ++ pyReprD kvs

end

/-- Python `str(...)` (plain f-string interpolation): identity on strings,
`repr` on everything else, which matches `str` for the types at hand. -/
def pyStr : JVal → String
  | .str s => s
  | v => pyRepr v

/-- Python `==` restricted to the pairs that can reach the final
`if a == b` of `_cmp`: both-dict, both-list and both-numeric pairs were
consumed by the earlier branches, so what remains is string/string and
null/null equality, every other reachable pair comparing unequal.  (The
numeric clause mirrors Python's cross-kind numeric `==` and is itself
unreachable there; both-container pairs never reach this function at all.) -/
def pyEqAtom : JVal → JVal → Bool
  | .str s, .str t => s == t
  | .null, .null => true
  | a, b => isNum a && isNum b && (pyFloat a == pyFloat b)

/-- The non-container tail of `_cmp` (source lines 172-180): the numeric
branch with its inclusive tolerance, then Python `a == b`, then the
value-mismatch report. -/
def atomCase (a b : JVal) (tol : ℚ) (path : String) : Bool × String :=
  if isNum a && isNum b then
    if |pyFloat a - pyFloat b| ≤ tol then (true, "")
    else
      (false, path ++ ": number mismatch: ref=" ++ pyStr a ++ " moon=" ++
        pyStr b ++ " (tol=" ++ toString tol ++ ")")
  else if pyEqAtom a b then (true, "")
  else (false, path ++ ": value mismatch: ref=" ++ pyRepr a ++ " moon=" ++ pyRepr b)

theorem lookup_size {kvs : List (String × JVal)} {k : String} {v : JVal}
    (h : lookup kvs k = some v) : size v ≤ sizeD kvs := by
  induction kvs with
  | nil => simp [lookup] at h
  | cons kv kvs ih =>
    simp only [lookup] at h
    by_cases hk : kv.1 = k
    · simp [hk] at h
      subst h
      simp [sizeD]
      omega
    · simp [hk] at h
      have := ih h
      simp [sizeD]
      omega

theorem lookupD_size (kvs : List (String × JVal)) (k : String) :
    size (lookupD kvs k) ≤ sizeD kvs := by
  unfold lookupD
  cases h : lookup kvs k with
  | none => simp [size]
  | some v => simpa using lookup_size h

theorem sizeP_zip (xs ys : List JVal) :
    sizeP (xs.zip ys) ≤ sizeL xs + sizeL ys := by
  induction xs generalizing ys with
  | nil => simp [List.zip, sizeP]
  | cons x xs ih =>
    cases ys with
    | nil => simp [List.zip, sizeP, sizeL]
    | cons y ys =>
      have h := ih ys
      simp only [List.zip_cons_cons, sizeP, sizeL]
      simp only [List.zip] at h ⊢
      omega

mutual

/-- The comparator `_cmp(a, b, tol=..., path=...)`, source lines 153-180.
Mapping branch: Python's `set`-equality test of the key sets, a key-mismatch
report naming both sorted key lists, else recursion over `sorted(ak)`.
Sequence branch: length check then pairwise recursion over
`enumerate(zip(a, b))`.  Remaining pairs go to `atomCase`. -/
def _cmp (a b : JVal) (tol : ℚ) (path : String) : Bool × String :=
  match a, b with
  | .dict xs, .dict ys =>
    if keySet xs = keySet ys then
      cmpKeys xs ys tol path (sortedKeys xs)
    else
      (false, path ++ ": key mismatch: ref=" ++ renderKeys (sortedKeys xs) ++
        " moon=" ++ renderKeys (sortedKeys ys))
  | .list xs, .list ys =>
    if xs.length = ys.length then
      cmpElems (xs.zip ys) tol path 0
    else
      (false, path ++ ": length mismatch: ref=" ++ toString xs.length ++
        " moon=" ++ toString ys.length)
  | a, b => atomCase a b tol path
termination_by ((size a + size b, 0) : Nat × Nat)
decreasing_by
· apply Prod.Lex.left
  simp only [size]
  omega
· apply Prod.Lex.left
  have h := sizeP_zip xs ys
  simp only [size]
  omega

/-- The `for k in sorted(ak)` loop of the mapping branch: compare the two
values at each key in order, returning the first failing result. -/
def cmpKeys (xs ys : List (String × JVal)) (tol : ℚ) (path : String) :
    List String → Bool × String
  | [] => (true, "")
  | k :: ks =>
    let r := _cmp (lookupD xs k) (lookupD ys k) tol (path ++ "." ++ k)
    if r.1 then cmpKeys xs ys tol path ks else r
termination_by ks => ((sizeD xs + sizeD ys + 1, ks.length) : Nat × Nat)
decreasing_by
· apply Prod.Lex.left
  have h1 := lookupD_size xs k
  have h2 := lookupD_size ys k
  omega
· apply Prod.Lex.right
  simp

/-- The `for i, (x, y) in enumerate(zip(a, b))` loop of the sequence branch:
compare pairwise at paths `path[i]`, returning the first failing result. -/
def cmpElems (ps : List (JVal × JVal)) (tol : ℚ) (path : String) (i : Nat) :
    Bool × String :=
  match ps with
  | [] => (true, "")
  | p :: ps =>
    let r := _cmp p.1 p.2 tol (path ++ "[" ++ toString i ++ "]")
    if r.1 then cmpElems ps tol path (i + 1) else r
termination_by ((sizeP ps + 1, ps.length) : Nat × Nat)
decreasing_by
· apply Prod.Lex.left
  simp only [sizeP]
  omega
· apply Prod.Lex.left
  simp only [sizeP]
  omega

end

/-- The document-model kind of a value (§3 of the spec): `int` and `float`
leaves are both numbers. -/
inductive Kind where
  | knull | kbool | knum | kstr | kseq | kmap
deriving DecidableEq

/-- Classify a value by its document-model kind. -/
def kindOf : JVal → Kind
  | .null => .knull
  | .bool _ => .kbool
  | .int _ => .knum
  | .float _ => .knum
  | .str _ => .kstr
  | .list _ => .kseq
  | .dict _ => .kmap

/-- Python `isinstance(x, dict)`. -/
def isDict : JVal → Bool
  | .dict _ => true
  | _ => false

/-- Python `isinstance(x, list)`. -/
def isList : JVal → Bool
  | .list _ => true
  | _ => false

/-- The characters Python `str.strip()` removes: space, tab, newline,
carriage return, vertical tab, form feed. -/
def isPySpace (c : Char) : Bool :=
  c == ' ' || c == '\t' || c == '\n' || c == '\r' || c == '\x0b' || c == '\x0c'

/-- Python `s.strip()`: remove leading and trailing whitespace. -/
def pyStrip (s : String) : String :=
  String.mk (((s.data.dropWhile isPySpace).reverse.dropWhile isPySpace).reverse)

/-- The text `_run_moon_dump` / `_run_rust_dump` return for a producer
process whose captured standard output is `stdout` (source lines 124 and
150): `p.stdout.strip()`. -/
def runDumpOutput (stdout : String) : String := pyStrip stdout

/-- The transformation §4.2 of the spec claims for `run(...)`: the raw
standard-output text "trimmed of trailing whitespace" only, leading
whitespace untouched.  Stated from the spec's words, for comparison with
`runDumpOutput`. -/
def specTrimTrailing (s : String) : String :=
  String.mk ((s.data.reverse.dropWhile isPySpace).reverse)

/-- A completed subprocess as `_run` returns it: exit status and captured
output streams. -/
structure Proc where
  returncode : Int
  stdout : String
  stderr : String

/-- `_require_ok(p, what)` (source lines 49-63): pass when the exit status
is zero, otherwise abort the process with that same exit status
(`raise SystemExit(p.returncode)`). -/
def requireOk (p : Proc) : Option Int :=
  if p.returncode = 0 then none else some p.returncode

/-- Observable actions of the suite driver, in order: producer invocations,
per-case success lines on stdout, and the diagnostics that precede an exit. -/
inductive Ev where
  | runRust (t : String)
  | runMoon (t : String)
  | okLine (t : String)
  | parseFailRust (t raw : String)
  | parseFailMoon (t raw : String)
  | mismatchLine (t msg : String)
  | buildFail (rc : Int)
deriving DecidableEq

/-- One iteration of the loop of `main` (source lines 214-226) on text `t`:
run the reference producer, then the candidate producer (each gated by
`_require_ok`), strip and parse both outputs (`json.loads` abstracted as the
`parseJ` parameter; a parse failure raises `SystemExit(message)`, which
exits with status 1), then compare with `_cmp` from path `"$"`.  Returns the
events of the iteration and `none` to continue or `some code` to exit. -/
def runCase (rust moon : String → Proc) (parseJ : String → Option JVal)
    (tol : ℚ) (t : String) : List Ev × Option Int :=
  let rp := rust t
  match requireOk rp with
  | some c => ([.runRust t], some c)
  | none =>
    let mp := moon t
    match requireOk mp with
    | some c => ([.runRust t, .runMoon t], some c)
    | none =>
      let ro := runDumpOutput rp.stdout
      let mo := runDumpOutput mp.stdout
      match parseJ ro with
      | none => ([.runRust t, .runMoon t, .parseFailRust t ro], some 1)
      | some rj =>
        match parseJ mo with
        | none => ([.runRust t, .runMoon t, .parseFailMoon t mo], some 1)
        | some mj =>
          let r := _cmp rj mj tol "$"
          if r.1 then ([.runRust t, .runMoon t, .okLine t], none)
          else ([.runRust t, .runMoon t, .mismatchLine t r.2], some 1)

/-- The `for t in texts` loop of `main`: run cases in order, stop at the
first one that exits, exit 0 after the last case otherwise. -/
def runSuite (rust moon : String → Proc) (parseJ : String → Option JVal)
    (tol : ℚ) : List String → List Ev × Int
  | [] => ([], 0)
  | t :: ts =>
    let c := runCase rust moon parseJ tol t
    match c.2 with
    | some code => (c.1, code)
    | none =>
      let rest := runSuite rust moon parseJ tol ts
      (c.1 ++ rest.1, rest.2)

/-- `main` after argument and font handling: `_build_moon_dump` runs its
build subprocess through `_require_ok` before any case, then the suite loop
runs. -/
def mainModel (build : Proc) (rust moon : String → Proc)
    (parseJ : String → Option JVal) (tol : ℚ) (texts : List String) :
    List Ev × Int :=
  match requireOk build with
  | some c => ([.buildFail c], c)
  | none => runSuite rust moon parseJ tol texts

/-- The event trace of a list of passing cases. -/
def passEvs : List String → List Ev
  | [] => []
  | t :: ts => .runRust t :: .runMoon t :: .okLine t :: passEvs ts

mutual

/-- Fuel-indexed variant of `_cmp`, structurally recursive on the fuel:
every recursive call of the comparator costs one unit.  `none` means the
fuel ran out.  Used to express that the recursion depth of `_cmp` is
bounded by the size of its inputs. -/
def cmpF : Nat → JVal → JVal → ℚ → String → Option (Bool × String)
  | 0, _, _, _, _ => none
  | n + 1, a, b, tol, path =>
    match a, b with
    | .dict xs, .dict ys =>
      if keySet xs = keySet ys then cmpKeysF n xs ys tol path (sortedKeys xs)
      else
        some (false, path ++ ": key mismatch: ref=" ++ renderKeys (sortedKeys xs) ++
          " moon=" ++ renderKeys (sortedKeys ys))
    | .list xs, .list ys =>
      if xs.length = ys.length then cmpElemsF n (xs.zip ys) tol path 0
      else
        some (false, path ++ ": length mismatch: ref=" ++ toString xs.length ++
          " moon=" ++ toString ys.length)
    | a, b => some (atomCase a b tol path)

/-- Fuel-indexed variant of `cmpKeys`. -/
def cmpKeysF : Nat → List (String × JVal) → List (String × JVal) → ℚ →
    String → List String → Option (Bool × String)
  | _, _, _, _, _, [] => some (true, "")
  | n, xs, ys, tol, path, k :: ks =>
    match cmpF n (lookupD xs k) (lookupD ys k) tol (path ++ "." ++ k) with
    | none => none
    | some r => if r.1 then cmpKeysF n xs ys tol path ks else some r

/-- Fuel-indexed variant of `cmpElems`. -/
def cmpElemsF : Nat → List (JVal × JVal) → ℚ → String → Nat →
    Option (Bool × String)
  | _, [], _, _, _ => some (true, "")
  | n, p :: ps, tol, path, i =>
    match cmpF n p.1 p.2 tol (path ++ "[" ++ toString i ++ "]") with
    | none => none
    | some r => if r.1 then cmpElemsF n ps tol path (i + 1) else some r

end

/-! ### Order facts about the key sort -/

theorem charListLe_total : ∀ as bs, charListLe as bs = true ∨ charListLe bs as = true := by
  intro as
  induction as with
  | nil => intro bs; left; simp [charListLe]
  | cons a as ih =>
    intro bs
    cases bs with
    | nil => right; simp [charListLe]
    | cons b bs =>
      rcases lt_trichotomy a b with h | h | h
      · left; simp [charListLe, h]
      · subst h
        rcases ih bs with h2 | h2
        · left; simp [charListLe, lt_irrefl, h2]
        · right; simp [charListLe, lt_irrefl, h2]
      · right; simp [charListLe, h]

theorem charListLe_trans : ∀ as bs cs, charListLe as bs = true →
    charListLe bs cs = true → charListLe as cs = true := by
  intro as
  induction as with
  | nil => intro bs cs _ _; simp [charListLe]
  | cons a as ih =>
    intro bs cs h1 h2
    cases bs with
    | nil => simp [charListLe] at h1
    | cons b bs =>
      cases cs with
      | nil => simp [charListLe] at h2
      | cons c cs =>
        simp only [charListLe] at h1 h2 ⊢
        by_cases hab : a < b
        · by_cases hbc : b < c
          · simp [lt_trans hab hbc]
          · by_cases hcb : c < b
            · simp [hbc, hcb] at h2
            · have hbc' : b = c := le_antisymm (not_lt.mp hcb) (not_lt.mp hbc)
              subst hbc'
              simp [hab]
        · by_cases hba : b < a
          · simp [hab, hba] at h1
          · have hab' : a = b := le_antisymm (not_lt.mp hba) (not_lt.mp hab)
            subst hab'
            simp [lt_irrefl] at h1
            by_cases hbc : a < c
            · simp [hbc]
            · by_cases hcb : c < a
              · simp [hbc, hcb] at h2
              · have hbc' : a = c := le_antisymm (not_lt.mp hcb) (not_lt.mp hbc)
                subst hbc'
                simp [lt_irrefl] at h2 ⊢
                exact ih bs cs h1 h2

theorem charListLe_antisymm : ∀ as bs, charListLe as bs = true →
    charListLe bs as = true → as = bs := by
  intro as
  induction as with
  | nil =>
    intro bs _ h2
    cases bs with
    | nil => rfl
    | cons b bs => simp [charListLe] at h2
  | cons a as ih =>
    intro bs h1 h2
    cases bs with
    | nil => simp [charListLe] at h1
    | cons b bs =>
      simp only [charListLe] at h1 h2
      by_cases hab : a < b
      · simp [hab, lt_asymm hab] at h2
      · by_cases hba : b < a
        · simp [hab, hba] at h1
        · have hab' : a = b := le_antisymm (not_lt.mp hba) (not_lt.mp hab)
          subst hab'
          simp [lt_irrefl] at h1 h2
          rw [ih bs h1 h2]

theorem pyStrLe_total (a b : String) : pyStrLe a b = true ∨ pyStrLe b a = true :=
  charListLe_total a.data b.data

theorem pyStrLe_trans {a b c : String} (h1 : pyStrLe a b = true)
    (h2 : pyStrLe b c = true) : pyStrLe a c = true :=
  charListLe_trans a.data b.data c.data h1 h2

theorem pyStrLe_antisymm {a b : String} (h1 : pyStrLe a b = true)
    (h2 : pyStrLe b a = true) : a = b := by
  cases a with
  | mk da =>
    cases b with
    | mk db =>
      have := charListLe_antisymm da db h1 h2
      simp_all

instance : IsTotal String (fun a b => pyStrLe a b = true) := ⟨pyStrLe_total⟩

instance : IsTrans String (fun a b => pyStrLe a b = true) :=
  ⟨fun _ _ _ => pyStrLe_trans⟩

instance : IsAntisymm String (fun a b => pyStrLe a b = true) :=
  ⟨fun _ _ => pyStrLe_antisymm⟩

/-! ### The sorted key list is a canonical form of the key set -/

theorem mem_sortedKeys {kvs : List (String × JVal)} {k : String} :
    k ∈ sortedKeys kvs ↔ k ∈ keyList kvs := by
  simp [sortedKeys, List.mem_insertionSort, List.mem_dedup]

theorem sortedKeys_nodup (kvs : List (String × JVal)) : (sortedKeys kvs).Nodup :=
  ((List.perm_insertionSort _ _).nodup_iff).mpr (List.nodup_dedup _)

theorem sortedKeys_sorted (kvs : List (String × JVal)) :
    (sortedKeys kvs).Sorted (fun a b => pyStrLe a b = true) :=
  List.sorted_insertionSort _ _

/-- The code's `set`-equality test on key sets coincides with equality of the
sorted key lists used in the report and the recursion order. -/
theorem sortedKeys_eq_iff {xs ys : List (String × JVal)} :
    sortedKeys xs = sortedKeys ys ↔ keySet xs = keySet ys := by
  constructor
  · intro h
    apply Finset.ext
    intro k
    have hx := @mem_sortedKeys xs k
    have hy := @mem_sortedKeys ys k
    simp only [keySet, List.mem_toFinset]
    rw [← hx, ← hy, h]
  · intro h
    have hmem : ∀ k, k ∈ sortedKeys xs ↔ k ∈ sortedKeys ys := by
      intro k
      rw [mem_sortedKeys, mem_sortedKeys]
      have := Finset.ext_iff.mp h k
      simpa [keySet, List.mem_toFinset] using this
    have hperm : List.Perm (sortedKeys xs) (sortedKeys ys) :=
      (List.perm_ext_iff_of_nodup (sortedKeys_nodup xs) (sortedKeys_nodup ys)).mpr hmem
    exact List.eq_of_perm_of_sorted hperm (sortedKeys_sorted xs) (sortedKeys_sorted ys)

/-! ### Unfolding and first-mismatch characterisations of the comparator -/

theorem cmp_dict_dict (xs ys : List (String × JVal)) (tol : ℚ) (path : String) :
    _cmp (.dict xs) (.dict ys) tol path =
      if keySet xs = keySet ys then
        cmpKeys xs ys tol path (sortedKeys xs)
      else
        (false, path ++ ": key mismatch: ref=" ++ renderKeys (sortedKeys xs) ++
          " moon=" ++ renderKeys (sortedKeys ys)) := by
  rw [_cmp]

theorem cmp_list_list (xs ys : List JVal) (tol : ℚ) (path : String) :
    _cmp (.list xs) (.list ys) tol path =
      if xs.length = ys.length then
        cmpElems (xs.zip ys) tol path 0
      else
        (false, path ++ ": length mismatch: ref=" ++ toString xs.length ++
          " moon=" ++ toString ys.length) := by
  rw [_cmp]

theorem cmp_atom (a b : JVal) (tol : ℚ) (path : String)
    (h1 : (isDict a && isDict b) = false) (h2 : (isList a && isList b) = false) :
    _cmp a b tol path = atomCase a b tol path := by
  cases a <;> cases b <;> rw [_cmp.eq_def] <;> simp_all [isDict, isList]

theorem cmpKeys_nil (xs ys : List (String × JVal)) (tol : ℚ) (path : String) :
    cmpKeys xs ys tol path [] = (true, "") := by
  rw [cmpKeys]

theorem cmpKeys_cons (xs ys : List (String × JVal)) (tol : ℚ) (path : String)
    (k : String) (ks : List String) :
    cmpKeys xs ys tol path (k :: ks) =
      if (_cmp (lookupD xs k) (lookupD ys k) tol (path ++ "." ++ k)).1 then
        cmpKeys xs ys tol path ks
      else
        _cmp (lookupD xs k) (lookupD ys k) tol (path ++ "." ++ k) := by
  rw [cmpKeys]

theorem cmpElems_nil (tol : ℚ) (path : String) (i : Nat) :
    cmpElems [] tol path i = (true, "") := by
  rw [cmpElems]

theorem cmpElems_cons (p : JVal × JVal) (ps : List (JVal × JVal)) (tol : ℚ)
    (path : String) (i : Nat) :
    cmpElems (p :: ps) tol path i =
      if (_cmp p.1 p.2 tol (path ++ "[" ++ toString i ++ "]")).1 then
        cmpElems ps tol path (i + 1)
      else
        _cmp p.1 p.2 tol (path ++ "[" ++ toString i ++ "]") := by
  rw [cmpElems]

theorem cmpKeys_all_ok {xs ys : List (String × JVal)} {tol : ℚ} {path : String}
    {ks : List String}
    (h : ∀ k ∈ ks, (_cmp (lookupD xs k) (lookupD ys k) tol (path ++ "." ++ k)).1 = true) :
    cmpKeys xs ys tol path ks = (true, "") := by
  induction ks with
  | nil => exact cmpKeys_nil xs ys tol path
  | cons k ks ih =>
    rw [cmpKeys_cons, if_pos (h k (List.mem_cons_self k ks))]
    exact ih fun k' hk' => h k' (List.mem_cons_of_mem k hk')

theorem cmpKeys_first_fail {xs ys : List (String × JVal)} {tol : ℚ} {path : String}
    (pre : List String) (k : String) (post : List String)
    (hok : ∀ k' ∈ pre, (_cmp (lookupD xs k') (lookupD ys k') tol (path ++ "." ++ k')).1 = true)
    (hfail : (_cmp (lookupD xs k) (lookupD ys k) tol (path ++ "." ++ k)).1 = false) :
    cmpKeys xs ys tol path (pre ++ k :: post) =
      _cmp (lookupD xs k) (lookupD ys k) tol (path ++ "." ++ k) := by
  induction pre with
  | nil =>
    rw [List.nil_append, cmpKeys_cons, hfail]
    simp
  | cons k' pre ih =>
    rw [List.cons_append, cmpKeys_cons, if_pos (hok k' (List.mem_cons_self k' pre))]
    exact ih fun u hu => hok u (List.mem_cons_of_mem k' hu)

theorem cmpElems_all_ok_of_mem {ps : List (JVal × JVal)} {tol : ℚ} {path : String}
    {i : Nat}
    (h : ∀ p ∈ ps, ∀ pth : String, (_cmp p.1 p.2 tol pth).1 = true) :
    cmpElems ps tol path i = (true, "") := by
  induction ps generalizing i with
  | nil => exact cmpElems_nil tol path i
  | cons p ps ih =>
    rw [cmpElems_cons, if_pos (h p (List.mem_cons_self p ps) _)]
    exact ih fun q hq => h q (List.mem_cons_of_mem p hq)

theorem cmpElems_first_fail {tol : ℚ} {path : String}
    (pre : List (JVal × JVal)) (x y : JVal) (post : List (JVal × JVal)) (i : Nat)
    (hok : ∀ j q, pre.get? j = some q →
      (_cmp q.1 q.2 tol (path ++ "[" ++ toString (i + j) ++ "]")).1 = true)
    (hfail : (_cmp x y tol (path ++ "[" ++ toString (i + pre.length) ++ "]")).1 = false) :
    cmpElems (pre ++ (x, y) :: post) tol path i =
      _cmp x y tol (path ++ "[" ++ toString (i + pre.length) ++ "]") := by
  induction pre generalizing i with
  | nil =>
    rw [List.nil_append, cmpElems_cons]
    simp only [List.length_nil, Nat.add_zero] at hfail
    simp [hfail]
  | cons p pre ih =>
    rw [List.cons_append, cmpElems_cons]
    have h0 := hok 0 p rfl
    simp only [Nat.add_zero] at h0
    rw [if_pos h0]
    have hlen : i + 1 + pre.length = i + (p :: pre).length := by
      simp only [List.length_cons]
      omega
    have hok' : ∀ j q, pre.get? j = some q →
        (_cmp q.1 q.2 tol (path ++ "[" ++ toString (i + 1 + j) ++ "]")).1 = true := by
      intro j q hq
      have he : i + 1 + j = i + (j + 1) := by omega
      rw [he]
      exact hok (j + 1) q (by simpa using hq)
    have hfail' :
        (_cmp x y tol (path ++ "[" ++ toString (i + 1 + pre.length) ++ "]")).1 = false := by
      rw [hlen]
      exact hfail
    rw [ih (i + 1) hok' hfail', hlen]

/-! ### Reflexivity of the comparator -/

theorem size_mem_lt {x : JVal} {xs : List JVal} (h : x ∈ xs) : size x < sizeL xs := by
  induction xs with
  | nil => simp at h
  | cons y ys ih =>
    rcases List.mem_cons.mp h with h | h
    · subst h
      simp [sizeL]
      omega
    · have := ih h
      simp [sizeL]
      omega

theorem zip_self_mem {xs : List JVal} {p : JVal × JVal} (h : p ∈ xs.zip xs) :
    p.1 = p.2 := by
  induction xs with
  | nil => simp [List.zip] at h
  | cons x xs ih =>
    rw [List.zip_cons_cons] at h
    rcases List.mem_cons.mp h with h | h
    · subst h; rfl
    · exact ih h

theorem cmp_refl_aux : ∀ n : Nat, ∀ a : JVal, size a < n → ∀ tol : ℚ, 0 ≤ tol →
    ∀ path : String, _cmp a a tol path = (true, "") := by
  intro n
  induction n with
  | zero => intro a ha; omega
  | succ n ih =>
    intro a ha tol htol path
    match a with
    | .null =>
      rw [cmp_atom .null .null tol path rfl rfl]
      simp [atomCase, isNum, pyEqAtom]
    | .bool b =>
      rw [cmp_atom (.bool b) (.bool b) tol path rfl rfl]
      simp [atomCase, isNum, sub_self, abs_zero, htol]
    | .int m =>
      rw [cmp_atom (.int m) (.int m) tol path rfl rfl]
      simp [atomCase, isNum, sub_self, abs_zero, htol]
    | .float q =>
      rw [cmp_atom (.float q) (.float q) tol path rfl rfl]
      simp [atomCase, isNum, sub_self, abs_zero, htol]
    | .str s =>
      rw [cmp_atom (.str s) (.str s) tol path rfl rfl]
      simp [atomCase, isNum, pyEqAtom]
    | .list xs =>
      rw [cmp_list_list, if_pos rfl]
      apply cmpElems_all_ok_of_mem
      intro p hp pth
      have hp1 := zip_self_mem hp
      have hmem : p.1 ∈ xs := (List.of_mem_zip hp).1
      have hsz : size p.1 < n := by
        have h1 := size_mem_lt hmem
        have h2 : size (JVal.list xs) = 1 + sizeL xs := by rw [size]
        omega
      rw [← hp1, ih p.1 hsz tol htol pth]
    | .dict kvs =>
      rw [cmp_dict_dict, if_pos rfl]
      apply cmpKeys_all_ok
      intro k _
      have hsz : size (lookupD kvs k) < n := by
        have h1 := lookupD_size kvs k
        have h2 : size (JVal.dict kvs) = 1 + sizeD kvs := by rw [size]
        omega
      rw [ih (lookupD kvs k) hsz tol htol _]

/-- C2: comparing any well-formed document value with itself matches, for
every tolerance `tol ≥ 0` (reflexivity of `_cmp`; numbers are modelled as
exact rationals, so every numeric leaf satisfies `abs(x - x) = 0 ≤ tol`). -/
theorem compare_refl (a : JVal) (tol : ℚ) (path : String) (htol : 0 ≤ tol) :
    _cmp a a tol path = (true, "") :=
  cmp_refl_aux (size a + 1) a (by omega) tol htol path

/-- Witness for C2 at a concrete nested document and `tol = 0`. -/
theorem compare_refl_witness :
    (0 : ℚ) ≤ 0 ∧
      _cmp (.dict [("a", .list [.int 1, .bool true, .null, .str "x", .float (3/2)])])
        (.dict [("a", .list [.int 1, .bool true, .null, .str "x", .float (3/2)])])
        0 "$" = (true, "") :=
  ⟨le_refl 0, compare_refl _ 0 "$" (le_refl 0)⟩

/-! ### C1: numeric leaves and the inclusive tolerance bound -/

/-- C1: for every pair of numeric leaves (values accepted by the code's
`isinstance(x, (int, float))` guard) and every tolerance, the comparator
matches exactly when `abs(reference - candidate) ≤ tol` — an inclusive
bound — and otherwise returns `False` together with the number-mismatch
report at the leaf's path, carrying both raw values and the tolerance. -/
theorem numeric_leaf_tolerance (a b : JVal) (tol : ℚ) (path : String)
    (ha : isNum a = true) (hb : isNum b = true) :
    ((_cmp a b tol path).1 = true ↔ |pyFloat a - pyFloat b| ≤ tol) ∧
    (¬ |pyFloat a - pyFloat b| ≤ tol →
      _cmp a b tol path =
        (false, path ++ ": number mismatch: ref=" ++ pyStr a ++ " moon=" ++
          pyStr b ++ " (tol=" ++ toString tol ++ ")")) := by
  have hd : (isDict a && isDict b) = false := by
    cases a <;> cases b <;> simp_all [isNum, isDict]
  have hl : (isList a && isList b) = false := by
    cases a <;> cases b <;> simp_all [isNum, isList]
  rw [cmp_atom a b tol path hd hl]
  unfold atomCase
  rw [if_pos (show (isNum a && isNum b) = true by rw [ha, hb]; rfl)]
  rcases le_or_lt |pyFloat a - pyFloat b| tol with habs | habs
  · rw [if_pos habs]
    exact ⟨⟨fun _ => habs, fun _ => rfl⟩, fun hc => absurd habs hc⟩
  · rw [if_neg (not_le.mpr habs)]
    refine ⟨⟨fun h => absurd h (by simp), fun h => absurd habs (not_lt.mpr h)⟩, fun _ => rfl⟩

/-- Witness for C1 at the numeric leaves `0` and `1` with `tol = 1/2`:
`|0 − 1| = 1 > 1/2`, so the pair mismatches with the full report. -/
theorem numeric_leaf_tolerance_witness :
    isNum (.int 0) = true ∧ isNum (.int 1) = true ∧
    (((_cmp (.int 0) (.int 1) (1/2) "$").1 = true ↔
        |pyFloat (.int 0) - pyFloat (.int 1)| ≤ 1/2) ∧
      (¬ |pyFloat (.int 0) - pyFloat (.int 1)| ≤ 1/2 →
        _cmp (.int 0) (.int 1) (1/2) "$" =
          (false, "$" ++ ": number mismatch: ref=" ++ pyStr (.int 0) ++ " moon=" ++
            pyStr (.int 1) ++ " (tol=" ++ toString (1/2 : ℚ) ++ ")"))) :=
  ⟨rfl, rfl, numeric_leaf_tolerance (.int 0) (.int 1) (1/2) "$" rfl rfl⟩

/-! ### Permutation invariance machinery for mappings -/

theorem lookup_perm {xs xs' : List (String × JVal)} (h : List.Perm xs xs') :
    (keyList xs).Nodup → ∀ k, lookup xs k = lookup xs' k := by
  induction h with
  | nil => intro _ k; rfl
  | cons p h ih =>
    intro hnd k
    simp only [lookup]
    by_cases hk : p.1 = k
    · simp [hk]
    · simp only [hk, if_false]
      exact ih (by simpa [keyList] using hnd.of_cons) k
  | swap p q t =>
    intro hnd k
    have hne : q.1 ≠ p.1 := by
      simp [keyList, List.nodup_cons] at hnd
      exact hnd.1.1
    simp only [lookup]
    by_cases h1 : q.1 = k <;> by_cases h2 : p.1 = k
    · exact absurd (h1.trans h2.symm) hne
    · simp [h1, h2]
    · simp [h1, h2]
    · simp [h1, h2]
  | trans h1 h2 ih1 ih2 =>
    intro hnd k
    rw [ih1 hnd k]
    have hnd' : (keyList _).Nodup := ((h1.map Prod.fst).nodup_iff).mp hnd
    exact ih2 hnd' k

theorem lookupD_perm {xs xs' : List (String × JVal)} (hnd : (keyList xs).Nodup)
    (h : List.Perm xs xs') (k : String) : lookupD xs k = lookupD xs' k := by
  unfold lookupD
  rw [lookup_perm h hnd k]

theorem keySet_perm {xs xs' : List (String × JVal)} (h : List.Perm xs xs') :
    keySet xs = keySet xs' := by
  apply Finset.ext
  intro k
  simp only [keySet, List.mem_toFinset]
  exact (h.map Prod.fst).mem_iff

theorem sortedKeys_perm {xs xs' : List (String × JVal)} (h : List.Perm xs xs') :
    sortedKeys xs = sortedKeys xs' := by
  have hperm : List.Perm (sortedKeys xs) (sortedKeys xs') := by
    have h1 : List.Perm (sortedKeys xs) (keyList xs).dedup := List.perm_insertionSort _ _
    have h2 : List.Perm (keyList xs).dedup (keyList xs').dedup := (h.map Prod.fst).dedup
    have h3 : List.Perm (keyList xs').dedup (sortedKeys xs') :=
      (List.perm_insertionSort _ _).symm
    exact (h1.trans h2).trans h3
  exact List.eq_of_perm_of_sorted hperm (sortedKeys_sorted xs) (sortedKeys_sorted xs')

theorem cmpKeys_congr {xs xs' ys : List (String × JVal)} {tol : ℚ} {path : String}
    (h : ∀ k, lookupD xs k = lookupD xs' k) (ks : List String) :
    cmpKeys xs ys tol path ks = cmpKeys xs' ys tol path ks := by
  induction ks with
  | nil => rw [cmpKeys_nil, cmpKeys_nil]
  | cons k ks ih => rw [cmpKeys_cons, cmpKeys_cons, h k, ih]

/-! ### C3: mapping comparison -/

/-- C3: mapping comparison requires the two key sets to be exactly equal,
reporting a key mismatch naming both sorted key lists at the current path
when they differ; with equal key sets it recurses through the keys in
sorted order, making the result insensitive to the order in which a
mapping's entries appear (for well-formed mappings, whose keys are unique)
while sensitive to key-set identity, and the first failing key's result is
returned unchanged, later keys never examined. -/
theorem mapping_comparison (xs ys : List (String × JVal)) (tol : ℚ) (path : String) :
    (keySet xs ≠ keySet ys →
      _cmp (.dict xs) (.dict ys) tol path =
        (false, path ++ ": key mismatch: ref=" ++ renderKeys (sortedKeys xs) ++
          " moon=" ++ renderKeys (sortedKeys ys))) ∧
    (keySet xs = keySet ys →
      _cmp (.dict xs) (.dict ys) tol path = cmpKeys xs ys tol path (sortedKeys xs)) ∧
    (∀ xs', (keyList xs).Nodup → List.Perm xs xs' →
      _cmp (.dict xs) (.dict ys) tol path = _cmp (.dict xs') (.dict ys) tol path) ∧
    (∀ ys', (keyList ys).Nodup → List.Perm ys ys' →
      _cmp (.dict xs) (.dict ys) tol path = _cmp (.dict xs) (.dict ys') tol path) ∧
    (∀ pre k post, keySet xs = keySet ys →
      sortedKeys xs = pre ++ k :: post →
      (∀ k' ∈ pre, (_cmp (lookupD xs k') (lookupD ys k') tol (path ++ "." ++ k')).1 = true) →
      (_cmp (lookupD xs k) (lookupD ys k) tol (path ++ "." ++ k)).1 = false →
      _cmp (.dict xs) (.dict ys) tol path =
        _cmp (lookupD xs k) (lookupD ys k) tol (path ++ "." ++ k)) := by
  refine ⟨fun hne => ?_, fun heq => ?_, fun xs' hnd hperm => ?_, fun ys' hnd hperm => ?_,
    fun pre k post heq hsplit hok hfail => ?_⟩
  · rw [cmp_dict_dict, if_neg hne]
  · rw [cmp_dict_dict, if_pos heq]
  · rw [cmp_dict_dict, cmp_dict_dict, ← keySet_perm hperm, ← sortedKeys_perm hperm]
    by_cases h : keySet xs = keySet ys
    · rw [if_pos h, if_pos h]
      exact cmpKeys_congr (lookupD_perm hnd hperm) _
    · rw [if_neg h, if_neg h]
  · rw [cmp_dict_dict, cmp_dict_dict, ← keySet_perm hperm, ← sortedKeys_perm hperm]
    by_cases h : keySet xs = keySet ys
    · rw [if_pos h, if_pos h]
      induction (sortedKeys xs) with
      | nil => rw [cmpKeys_nil, cmpKeys_nil]
      | cons k ks ih => rw [cmpKeys_cons, cmpKeys_cons, lookupD_perm hnd hperm k, ih]
    · rw [if_neg h, if_neg h]
  · rw [cmp_dict_dict, if_pos heq, hsplit]
    exact cmpKeys_first_fail pre k post hok hfail

/-- Witness for C3: `{"a": 1, "b": 2}` against `{"a": 1, "c": 2}` — key sets
differ (neither is a subset of the other is not required; any difference
fails), so the comparator reports the key mismatch naming both sorted key
lists. -/
theorem mapping_comparison_witness :
    keySet [("a", JVal.int 1), ("b", JVal.int 2)] ≠
        keySet [("a", JVal.int 1), ("c", JVal.int 2)] ∧
      _cmp (.dict [("a", JVal.int 1), ("b", JVal.int 2)])
          (.dict [("a", JVal.int 1), ("c", JVal.int 2)]) 0 "$" =
        (false, "$" ++ ": key mismatch: ref=" ++
          renderKeys (sortedKeys [("a", JVal.int 1), ("b", JVal.int 2)]) ++ " moon=" ++
          renderKeys (sortedKeys [("a", JVal.int 1), ("c", JVal.int 2)])) :=
  ⟨by decide,
    (mapping_comparison [("a", JVal.int 1), ("b", JVal.int 2)]
      [("a", JVal.int 1), ("c", JVal.int 2)] 0 "$").1 (by decide)⟩

/-! ### C4: sequence comparison -/

/-- C4: sequence comparison first requires equal lengths, reporting a length
mismatch carrying both lengths at the current path otherwise; with equal
lengths it recurses pairwise by position at paths `path[i]`, and the first
positional mismatch is returned unchanged (order-sensitive comparison:
whichever index differs first decides the result). -/
theorem sequence_comparison (xs ys : List JVal) (tol : ℚ) (path : String) :
    (xs.length ≠ ys.length →
      _cmp (.list xs) (.list ys) tol path =
        (false, path ++ ": length mismatch: ref=" ++ toString xs.length ++
          " moon=" ++ toString ys.length)) ∧
    (xs.length = ys.length →
      _cmp (.list xs) (.list ys) tol path = cmpElems (xs.zip ys) tol path 0) ∧
    (∀ pre x y post, xs.length = ys.length →
      xs.zip ys = pre ++ (x, y) :: post →
      (∀ j q, pre.get? j = some q →
        (_cmp q.1 q.2 tol (path ++ "[" ++ toString j ++ "]")).1 = true) →
      (_cmp x y tol (path ++ "[" ++ toString pre.length ++ "]")).1 = false →
      _cmp (.list xs) (.list ys) tol path =
        _cmp x y tol (path ++ "[" ++ toString pre.length ++ "]")) := by
  refine ⟨fun hne => ?_, fun heq => ?_, fun pre x y post heq hsplit hok hfail => ?_⟩
  · rw [cmp_list_list, if_neg hne]
  · rw [cmp_list_list, if_pos heq]
  · rw [cmp_list_list, if_pos heq, hsplit]
    have := cmpElems_first_fail pre x y post 0
      (fun j q hq => by simpa using hok j q hq)
      (by simpa using hfail)
    simpa using this

/-- Witness for C4: `[1, 2]` against `[1, 2, 3]` — a length mismatch carrying
both lengths. -/
theorem sequence_comparison_witness :
    ([JVal.int 1, JVal.int 2].length ≠ [JVal.int 1, JVal.int 2, JVal.int 3].length) ∧
      _cmp (.list [JVal.int 1, JVal.int 2]) (.list [JVal.int 1, JVal.int 2, JVal.int 3]) 0 "$" =
        (false, "$" ++ ": length mismatch: ref=" ++
          toString [JVal.int 1, JVal.int 2].length ++ " moon=" ++
          toString [JVal.int 1, JVal.int 2, JVal.int 3].length) :=
  ⟨by decide,
    (sequence_comparison [JVal.int 1, JVal.int 2] [JVal.int 1, JVal.int 2, JVal.int 3]
      0 "$").1 (by decide)⟩

/-! ### C5: scalar leaves.  Python's `bool` is a subclass of `int`, so the
comparator's numeric branch captures boolean leaves: two distinct booleans
compare with a tolerance, not by identity. -/

/-- Counterexample to C5 as stated: at tolerance `1`, `True` and `False` —
two distinct booleans — are declared equal, because the numeric branch sees
`abs(float(True) - float(False)) = 1 ≤ 1`. -/
theorem distinct_booleans_match_at_tol_one :
    _cmp (.bool true) (.bool false) 1 "$" = (true, "") := by
  rw [cmp_atom (.bool true) (.bool false) 1 "$" rfl rfl]
  simp [atomCase, isNum, pyFloat]

/-- C5 (amended): string and null leaves are equal exactly when identical by
value, independent of the tolerance, with the value-mismatch report carrying
both raw representations on failure; boolean leaves however fall into the
numeric branch (Python `bool` is an `int` subtype), so with `tol ≥ 0` two
booleans match iff they are equal or `tol ≥ 1`, and two distinct booleans
mismatch exactly when `tol < 1`, reported as a number mismatch carrying both
raw values. -/
theorem scalar_leaf_comparison (tol : ℚ) (path : String) :
    (∀ s t : String, s ≠ t →
      _cmp (.str s) (.str t) tol path =
        (false, path ++ ": value mismatch: ref=" ++ pyRepr (.str s) ++
          " moon=" ++ pyRepr (.str t))) ∧
    (∀ s : String, _cmp (.str s) (.str s) tol path = (true, "")) ∧
    (_cmp .null .null tol path = (true, "")) ∧
    (∀ x y : Bool, 0 ≤ tol →
      ((_cmp (.bool x) (.bool y) tol path).1 = true ↔ (x = y ∨ 1 ≤ tol))) ∧
    (∀ x y : Bool, x ≠ y → tol < 1 →
      _cmp (.bool x) (.bool y) tol path =
        (false, path ++ ": number mismatch: ref=" ++ pyStr (.bool x) ++
          " moon=" ++ pyStr (.bool y) ++ " (tol=" ++ toString tol ++ ")")) := by
  refine ⟨fun s t hne => ?_, fun s => ?_, ?_, fun x y htol => ?_, fun x y hne htol => ?_⟩
  · rw [cmp_atom (.str s) (.str t) tol path rfl rfl]
    simp [atomCase, isNum, pyEqAtom, hne]
  · rw [cmp_atom (.str s) (.str s) tol path rfl rfl]
    simp [atomCase, isNum, pyEqAtom]
  · rw [cmp_atom .null .null tol path rfl rfl]
    simp [atomCase, isNum, pyEqAtom]
  · rw [cmp_atom (.bool x) (.bool y) tol path rfl rfl]
    cases x <;> cases y <;> simp [atomCase, isNum, pyFloat, htol]
    all_goals (by_cases h : 1 ≤ tol <;> simp [h])
  · rw [cmp_atom (.bool x) (.bool y) tol path rfl rfl]
    cases x <;> cases y <;> simp_all [atomCase, isNum, pyFloat, pyStr, pyRepr]

/-- Witness for C5 (amended), boolean part at `tol = 0`: `True` vs `False`
matches iff `true = false` or `1 ≤ 0` — i.e. does not match. -/
theorem scalar_leaf_comparison_witness :
    (0 : ℚ) ≤ 0 ∧
      ((_cmp (.bool true) (.bool false) 0 "$").1 = true ↔
        (true = false ∨ 1 ≤ (0 : ℚ))) :=
  ⟨le_refl 0, (scalar_leaf_comparison 0 "$").2.2.2.1 true false (le_refl 0)⟩

/-! ### C6: mismatched kinds -/

/-- Counterexample to C6 as stated: a boolean and a number are values of
different document-model kinds, yet `True` and `1` are declared equal (both
satisfy the code's `isinstance(x, (int, float))`, and `float(True) = 1.0`). -/
theorem bool_vs_number_declared_equal :
    _cmp (.bool true) (.int 1) 0 "$" = (true, "") := by
  rw [cmp_atom (.bool true) (.int 1) 0 "$" rfl rfl]
  simp [atomCase, isNum, pyFloat]

/-- C6 (amended): for every pair of values of different document-model kinds
that is not captured by the numeric branch (Python treats `bool` as numeric,
so boolean-versus-number pairs are compared numerically and can be declared
equal), the comparator reports a value mismatch at the current path carrying
both `repr` forms; it never declares such a pair equal. -/
theorem mismatched_kinds (a b : JVal) (tol : ℚ) (path : String)
    (hk : kindOf a ≠ kindOf b)
    (hnum : ¬(isNum a = true ∧ isNum b = true)) :
    _cmp a b tol path =
      (false, path ++ ": value mismatch: ref=" ++ pyRepr a ++ " moon=" ++ pyRepr b) := by
  have hd : (isDict a && isDict b) = false := by
    cases a <;> cases b <;> simp_all [isDict, kindOf]
  have hl : (isList a && isList b) = false := by
    cases a <;> cases b <;> simp_all [isList, kindOf]
  have hnum' : (isNum a && isNum b) = false := by
    cases ha : isNum a <;> cases hb : isNum b <;> simp_all
  have hpe : pyEqAtom a b = false := by
    cases a <;> cases b <;> simp_all [pyEqAtom, isNum, kindOf]
  rw [cmp_atom a b tol path hd hl]
  unfold atomCase
  rw [hnum']
  simp only [Bool.false_eq_true, if_false]
  rw [hpe]
  simp

/-- Witness for C6 (amended): an empty mapping against an empty sequence is
reported as a value mismatch. -/
theorem mismatched_kinds_witness :
    kindOf (.dict []) ≠ kindOf (.list []) ∧
      ¬(isNum (.dict []) = true ∧ isNum (.list []) = true) ∧
      _cmp (.dict []) (.list []) 0 "$" =
        (false, "$" ++ ": value mismatch: ref=" ++ pyRepr (.dict []) ++
          " moon=" ++ pyRepr (.list [])) :=
  ⟨by decide, by decide, mismatched_kinds (.dict []) (.list []) 0 "$" (by decide) (by decide)⟩

/-! ### C9: what `run(...)` does to the captured standard output.
`p.stdout.strip()` removes whitespace at *both* ends, not only trailing
whitespace. -/

/-- Counterexample to C9 as stated: on the raw output `" x"`, the run
operation returns `"x"` — the leading space is *not* preserved — while
trailing-only trimming would return `" x"` unchanged. -/
theorem run_output_not_trailing_only :
    runDumpOutput " x" = "x" ∧ specTrimTrailing " x" = " x" ∧
      runDumpOutput " x" ≠ specTrimTrailing " x" := by
  refine ⟨?_, ?_, ?_⟩ <;> decide

theorem all_takeWhile (p : Char → Bool) (l : List Char) :
    (l.takeWhile p).all p = true := by
  induction l with
  | nil => rfl
  | cons c l ih =>
    by_cases h : p c
    · simp [List.takeWhile, h, ih]
    · simp [List.takeWhile, h]

theorem head?_dropWhile_not (p : Char → Bool) (l : List Char) :
    ((l.dropWhile p).head?.all fun c => !p c) = true := by
  induction l with
  | nil => rfl
  | cons c l ih =>
    by_cases h : p c
    · simp [List.dropWhile, h, ih]
    · simp [List.dropWhile, h]

theorem strip_decomp (d : List Char) :
    d.dropWhile isPySpace =
      ((d.dropWhile isPySpace).reverse.dropWhile isPySpace).reverse ++
        ((d.dropWhile isPySpace).reverse.takeWhile isPySpace).reverse := by
  have h1 := List.takeWhile_append_dropWhile isPySpace (d.dropWhile isPySpace).reverse
  have h2 := congrArg List.reverse h1
  rw [List.reverse_append, List.reverse_reverse] at h2
  exact h2.symm

/-- C9 (amended): the run operation returns the producer's raw standard
output with whitespace removed from *both* ends (Python `str.strip()`): the
raw character sequence splits into a whitespace-only prefix, the returned
text unchanged, and a whitespace-only suffix, and the returned text neither
starts nor ends with whitespace. -/
theorem run_output_strips_both_ends (raw : String) :
    raw.data = raw.data.takeWhile isPySpace ++ (runDumpOutput raw).data ++
        ((raw.data.dropWhile isPySpace).reverse.takeWhile isPySpace).reverse ∧
      (raw.data.takeWhile isPySpace).all isPySpace = true ∧
      ((raw.data.dropWhile isPySpace).reverse.takeWhile isPySpace).reverse.all isPySpace
        = true ∧
      ((runDumpOutput raw).data.head?.all fun c => !isPySpace c) = true ∧
      ((runDumpOutput raw).data.getLast?.all fun c => !isPySpace c) = true := by
  have hdata : (runDumpOutput raw).data =
      ((raw.data.dropWhile isPySpace).reverse.dropWhile isPySpace).reverse := rfl
  refine ⟨?_, all_takeWhile _ _, ?_, ?_, ?_⟩
  · conv_lhs => rw [← List.takeWhile_append_dropWhile isPySpace raw.data]
    rw [hdata, List.append_assoc]
    congr 1
    exact strip_decomp raw.data
  · rw [List.all_reverse]
    exact all_takeWhile _ _
  · rw [hdata]
    cases hc : ((raw.data.dropWhile isPySpace).reverse.dropWhile isPySpace).reverse with
    | nil => rfl
    | cons c rest =>
      have hfull := head?_dropWhile_not isPySpace raw.data
      have he := strip_decomp raw.data
      rw [hc] at he
      rw [he] at hfull
      simpa using hfull
  · rw [hdata, List.getLast?_eq_head?_reverse, List.reverse_reverse]
    exact head?_dropWhile_not isPySpace (raw.data.dropWhile isPySpace).reverse

/-! ### Driver lemmas -/

theorem requireOk_some {p : Proc} {c : Int} (h : requireOk p = some c) :
    c = p.returncode ∧ p.returncode ≠ 0 := by
  unfold requireOk at h
  by_cases h0 : p.returncode = 0
  · simp [h0] at h
  · simp [h0] at h
    exact ⟨h.symm, h0⟩

theorem requireOk_zero {p : Proc} (h : p.returncode = 0) : requireOk p = none := by
  simp [requireOk, h]

theorem runCase_pass_events {rust moon : String → Proc} {parseJ : String → Option JVal}
    {tol : ℚ} {t : String}
    (h : (runCase rust moon parseJ tol t).2 = none) :
    (runCase rust moon parseJ tol t).1 = [.runRust t, .runMoon t, .okLine t] := by
  simp only [runCase] at h ⊢
  cases h1 : requireOk (rust t) with
  | some c1 => simp [h1] at h
  | none =>
    simp only [h1] at h ⊢
    cases h2 : requireOk (moon t) with
    | some c2 => simp [h2] at h
    | none =>
      simp only [h2] at h ⊢
      cases h3 : parseJ (runDumpOutput (rust t).stdout) with
      | none => simp [h3] at h
      | some rj =>
        simp only [h3] at h ⊢
        cases h4 : parseJ (runDumpOutput (moon t).stdout) with
        | none => simp [h4] at h
        | some mj =>
          simp only [h4] at h ⊢
          by_cases h5 : (_cmp rj mj tol "$").1 = true
          · simp [h5]
          · simp [h5] at h

theorem runCase_fail_code {rust moon : String → Proc} {parseJ : String → Option JVal}
    {tol : ℚ} {t : String} {c : Int}
    (h : (runCase rust moon parseJ tol t).2 = some c) : c ≠ 0 := by
  simp only [runCase] at h
  cases h1 : requireOk (rust t) with
  | some c1 =>
    simp only [h1] at h
    simp at h
    obtain ⟨hc1, hne⟩ := requireOk_some h1
    omega
  | none =>
    simp only [h1] at h
    cases h2 : requireOk (moon t) with
    | some c2 =>
      simp only [h2] at h
      simp at h
      obtain ⟨hc2, hne⟩ := requireOk_some h2
      omega
    | none =>
      simp only [h2] at h
      cases h3 : parseJ (runDumpOutput (rust t).stdout) with
      | none =>
        simp only [h3] at h
        simp at h
        omega
      | some rj =>
        simp only [h3] at h
        cases h4 : parseJ (runDumpOutput (moon t).stdout) with
        | none =>
          simp only [h4] at h
          simp at h
          omega
        | some mj =>
          simp only [h4] at h
          by_cases h5 : (_cmp rj mj tol "$").1 = true
          · simp [h5] at h
          · simp [h5] at h
            omega

theorem runCase_fail_code_one {rust moon : String → Proc} {parseJ : String → Option JVal}
    {tol : ℚ} {t : String} {c : Int}
    (hr : (rust t).returncode = 0) (hm : (moon t).returncode = 0)
    (h : (runCase rust moon parseJ tol t).2 = some c) : c = 1 := by
  simp only [runCase, requireOk_zero hr, requireOk_zero hm] at h
  cases h3 : parseJ (runDumpOutput (rust t).stdout) with
  | none =>
    simp only [h3] at h
    simp at h
    omega
  | some rj =>
    simp only [h3] at h
    cases h4 : parseJ (runDumpOutput (moon t).stdout) with
    | none =>
      simp only [h4] at h
      simp at h
      omega
    | some mj =>
      simp only [h4] at h
      by_cases h5 : (_cmp rj mj tol "$").1 = true
      · simp [h5] at h
      · simp [h5] at h
        omega

theorem runSuite_nil (rust moon : String → Proc) (parseJ : String → Option JVal)
    (tol : ℚ) : runSuite rust moon parseJ tol [] = ([], 0) := rfl

theorem runSuite_cons (rust moon : String → Proc) (parseJ : String → Option JVal)
    (tol : ℚ) (t : String) (ts : List String) :
    runSuite rust moon parseJ tol (t :: ts) =
      match (runCase rust moon parseJ tol t).2 with
      | some code => ((runCase rust moon parseJ tol t).1, code)
      | none =>
        ((runCase rust moon parseJ tol t).1 ++ (runSuite rust moon parseJ tol ts).1,
          (runSuite rust moon parseJ tol ts).2) := rfl

theorem runSuite_append_pass {rust moon : String → Proc} {parseJ : String → Option JVal}
    {tol : ℚ} {pre : List String}
    (hpre : ∀ u ∈ pre, (runCase rust moon parseJ tol u).2 = none) (rest : List String) :
    runSuite rust moon parseJ tol (pre ++ rest) =
      (passEvs pre ++ (runSuite rust moon parseJ tol rest).1,
        (runSuite rust moon parseJ tol rest).2) := by
  induction pre with
  | nil => simp [passEvs]
  | cons t pre ih =>
    have ht := hpre t (List.mem_cons_self t pre)
    rw [List.cons_append, runSuite_cons, ht]
    rw [runCase_pass_events ht, ih fun u hu => hpre u (List.mem_cons_of_mem t hu)]
    simp [passEvs]

theorem runSuite_all_pass {rust moon : String → Proc} {parseJ : String → Option JVal}
    {tol : ℚ} {texts : List String}
    (h : ∀ u ∈ texts, (runCase rust moon parseJ tol u).2 = none) :
    runSuite rust moon parseJ tol texts = (passEvs texts, 0) := by
  have := runSuite_append_pass h []
  simpa [runSuite_nil, passEvs] using this

theorem runSuite_split {rust moon : String → Proc} {parseJ : String → Option JVal}
    {tol : ℚ} {pre post : List String} {t : String} {c : Int}
    (hpre : ∀ u ∈ pre, (runCase rust moon parseJ tol u).2 = none)
    (hfail : (runCase rust moon parseJ tol t).2 = some c) :
    runSuite rust moon parseJ tol (pre ++ t :: post) =
      (passEvs pre ++ (runCase rust moon parseJ tol t).1, c) := by
  rw [runSuite_append_pass hpre, runSuite_cons, hfail]

/-! ### C7: fail-fast suite driver -/

/-- C7: when every case before `t` passes and case `t` fails, the whole
suite's observable behaviour is exactly the pass traces of the earlier
cases (one `OK` success line each, after both producer invocations), then
the failing case's own events — which contain exactly one failure
diagnostic — and the process exits with the failing case's non-zero status;
no event of any case after `t` occurs, so neither producer is ever invoked
for the remaining texts. -/
theorem suite_fail_fast (rust moon : String → Proc) (parseJ : String → Option JVal)
    (tol : ℚ) (pre post : List String) (t : String) (c : Int)
    (hpre : ∀ u ∈ pre, (runCase rust moon parseJ tol u).2 = none)
    (hfail : (runCase rust moon parseJ tol t).2 = some c) :
    runSuite rust moon parseJ tol (pre ++ t :: post) =
        (passEvs pre ++ (runCase rust moon parseJ tol t).1, c) ∧
      c ≠ 0 :=
  ⟨runSuite_split hpre hfail, runCase_fail_code hfail⟩

/-- Producer model for the C7 witness: the reference side always prints
`x`. -/
def wRust : String → Proc := fun _ => ⟨0, "x", ""⟩

/-- Producer model for the C7 witness: the candidate side prints `y` for the
text `"b"` and `x` otherwise. -/
def wMoon : String → Proc := fun t => if t = "b" then ⟨0, "y", ""⟩ else ⟨0, "x", ""⟩

/-- Parser model for the C7 witness: `y` parses to the number `1`,
everything else to `null`. -/
def wParse : String → Option JVal := fun s => if s = "y" then some (.int 1) else some .null

/-- Witness for C7 on the suite `["a", "b", "c"]` where case `"b"`
mismatches: case `"a"` passes, `"b"` fails, the suite trace is the pass
trace of `"a"` followed by `"b"`'s events, the exit status is 1, and no
event of `"c"` occurs. -/
theorem suite_fail_fast_witness :
    (∀ u ∈ ["a"], (runCase wRust wMoon wParse 0 u).2 = none) ∧
      (runCase wRust wMoon wParse 0 "b").2 = some 1 ∧
      (runSuite wRust wMoon wParse 0 (["a"] ++ "b" :: ["c"]) =
          (passEvs ["a"] ++ (runCase wRust wMoon wParse 0 "b").1, 1) ∧
        (1 : Int) ≠ 0) := by
  have hstripx : runDumpOutput "x" = "x" := by decide
  have hstripy : runDumpOutput "y" = "y" := by decide
  have hcmp0 : _cmp JVal.null JVal.null 0 "$" = (true, "") := by
    rw [cmp_atom .null .null 0 "$" rfl rfl]
    simp [atomCase, isNum, pyEqAtom]
  have hcmp1 : (_cmp JVal.null (JVal.int 1) 0 "$").1 = false := by
    rw [cmp_atom .null (.int 1) 0 "$" rfl rfl]
    simp [atomCase, isNum, pyEqAtom]
  have h1 : ∀ u ∈ ["a"], (runCase wRust wMoon wParse 0 u).2 = none := by
    intro u hu
    simp only [List.mem_singleton] at hu
    subst hu
    simp [runCase, wRust, wMoon, wParse, requireOk, hstripx, hcmp0]
  have h2 : (runCase wRust wMoon wParse 0 "b").2 = some 1 := by
    simp [runCase, wRust, wMoon, wParse, requireOk, hstripx, hstripy, hcmp1]
  exact ⟨h1, h2, suite_fail_fast wRust wMoon wParse 0 ["a"] ["c"] "b" 1 h1 h2⟩

/-! ### C8: exit-code mapping -/

/-- C8: the process exit status follows the exit-code mapping: a failing
prerequisite build subprocess aborts, before any case runs, with that
subprocess's own exit status passed through unchanged; if every case passes
the process exits 0 after the whole suite; and when the producers of the
first failing case themselves succeeded — so the failure is a parse failure
or a structural/numeric mismatch — the process exits 1. -/
theorem exit_code_mapping (build : Proc) (rust moon : String → Proc)
    (parseJ : String → Option JVal) (tol : ℚ) (texts : List String) :
    (build.returncode ≠ 0 →
      mainModel build rust moon parseJ tol texts =
        ([.buildFail build.returncode], build.returncode)) ∧
    (build.returncode = 0 →
      (∀ u ∈ texts, (runCase rust moon parseJ tol u).2 = none) →
      mainModel build rust moon parseJ tol texts = (passEvs texts, 0)) ∧
    (∀ pre t post c, texts = pre ++ t :: post → build.returncode = 0 →
      (∀ u ∈ pre, (runCase rust moon parseJ tol u).2 = none) →
      (rust t).returncode = 0 → (moon t).returncode = 0 →
      (runCase rust moon parseJ tol t).2 = some c →
      (mainModel build rust moon parseJ tol texts).2 = 1) := by
  refine ⟨fun hb => ?_, fun hb hall => ?_, fun pre t post c hsplit hb hpre hr hm hfail => ?_⟩
  · simp [mainModel, requireOk, hb]
  · rw [mainModel, requireOk_zero hb, runSuite_all_pass hall]
  · rw [mainModel, requireOk_zero hb, hsplit, runSuite_split hpre hfail]
    simpa using runCase_fail_code_one hr hm hfail

/-- Witness for C8, prerequisite-failure part: the build subprocess exits
with status 2, and the suite exits with status 2 before any case runs (the
trace holds no producer invocation). -/
theorem exit_code_mapping_witness :
    (Proc.mk 2 "" "error: build failed").returncode ≠ 0 ∧
      mainModel (Proc.mk 2 "" "error: build failed") wRust wMoon wParse 0 ["a", "b"] =
        ([.buildFail 2], 2) :=
  ⟨by decide,
    (exit_code_mapping (Proc.mk 2 "" "error: build failed") wRust wMoon wParse 0
      ["a", "b"]).1 (by decide)⟩

/-! ### C10: totality of the comparator.  The well-founded definition of
`_cmp` already makes it a total Lean function; the theorems below make the
termination argument explicit: the structurally fuel-bounded variant `cmpF`
computes `_cmp` whenever the fuel exceeds the combined size of the inputs,
so the recursion depth is bounded by the (finite) size of the documents and
every case of the input space is handled. -/

theorem cmpKeysF_adequate {n : Nat} {xs ys : List (String × JVal)} {tol : ℚ}
    {path : String} {ks : List String}
    (H : ∀ k ∈ ks, ∀ pth : String,
      cmpF n (lookupD xs k) (lookupD ys k) tol pth =
        some (_cmp (lookupD xs k) (lookupD ys k) tol pth)) :
    cmpKeysF n xs ys tol path ks = some (cmpKeys xs ys tol path ks) := by
  induction ks with
  | nil => rw [cmpKeys_nil]; simp [cmpKeysF]
  | cons k ks ih =>
    simp only [cmpKeysF]
    rw [H k (List.mem_cons_self k ks) _, cmpKeys_cons]
    by_cases h5 : (_cmp (lookupD xs k) (lookupD ys k) tol (path ++ "." ++ k)).1 = true
    · simp only [h5, if_true]
      exact ih fun u hu pth => H u (List.mem_cons_of_mem k hu) pth
    · simp [h5]

theorem cmpElemsF_adequate {n : Nat} {ps : List (JVal × JVal)} {tol : ℚ} {path : String}
    (H : ∀ p ∈ ps, ∀ pth : String, cmpF n p.1 p.2 tol pth = some (_cmp p.1 p.2 tol pth)) :
    ∀ i, cmpElemsF n ps tol path i = some (cmpElems ps tol path i) := by
  induction ps with
  | nil => intro i; rw [cmpElems_nil]; simp [cmpElemsF]
  | cons p ps ih =>
    intro i
    simp only [cmpElemsF]
    rw [H p (List.mem_cons_self p ps) _, cmpElems_cons]
    by_cases h5 : (_cmp p.1 p.2 tol (path ++ "[" ++ toString i ++ "]")).1 = true
    · simp only [h5, if_true]
      exact ih (fun q hq pth => H q (List.mem_cons_of_mem p hq) pth) (i + 1)
    · simp [h5]

theorem cmpF_adequate : ∀ n (a b : JVal) (tol : ℚ) (path : String),
    size a + size b < n → cmpF n a b tol path = some (_cmp a b tol path) := by
  intro n
  induction n with
  | zero => intro a b tol path h; omega
  | succ n ih =>
    intro a b tol path hsz
    cases a <;> cases b
    case dict.dict xs ys =>
      rw [cmp_dict_dict]
      simp only [cmpF]
      by_cases h : keySet xs = keySet ys
      · rw [if_pos h, if_pos h]
        apply cmpKeysF_adequate
        intro k _ pth
        apply ih
        have h1 := lookupD_size xs k
        have h2 := lookupD_size ys k
        have e1 : size (JVal.dict xs) = 1 + sizeD xs := by rw [size]
        have e2 : size (JVal.dict ys) = 1 + sizeD ys := by rw [size]
        omega
      · rw [if_neg h, if_neg h]
    case list.list xs ys =>
      rw [cmp_list_list]
      simp only [cmpF]
      by_cases h : xs.length = ys.length
      · rw [if_pos h, if_pos h]
        apply cmpElemsF_adequate
        intro p hp pth
        apply ih
        obtain ⟨hp1, hp2⟩ := List.of_mem_zip hp
        have h1 := size_mem_lt hp1
        have h2 := size_mem_lt hp2
        have e1 : size (JVal.list xs) = 1 + sizeL xs := by rw [size]
        have e2 : size (JVal.list ys) = 1 + sizeL ys := by rw [size]
        omega
      · rw [if_neg h, if_neg h]
    all_goals simp [cmpF, cmp_atom, isDict, isList]

/-- C10: the comparator is a total, terminating function: on every pair of
finite document values it recurses only into strict subvalues, so the
fuel-bounded variant `cmpF` — which spends one fuel unit per recursive call
and gives up with `none` when the fuel runs out — already converges to the
comparator's answer with fuel `size a + size b + 1`, and every pair of
values falls into one of the handled branches. -/
theorem compare_total (a b : JVal) (tol : ℚ) (path : String) :
    cmpF (size a + size b + 1) a b tol path = some (_cmp a b tol path) :=
  cmpF_adequate (size a + size b + 1) a b tol path (by omega)

end Swash
